import Mathlib

/-!
Verification of the Spaceclip media-processing and clip-materialization
pipeline against its design specification.

Times are modelled as rationals (the source uses floating-point seconds,
but every claim under scrutiny involves only exact decimal values and
order/affine arithmetic, where ℚ is a faithful model).  Frontend
TypeScript functions are translated directly from the source files;
backend components that are documented but whose Python source is not in
the repository snapshot are modelled from the specification and marked
as such in their doc comments.
-/

namespace Spaceclip

/-- A transcript segment: absolute start/end times (seconds from media
start), text, optional speaker, confidence.  Field `end` of the source is
renamed `endTime` (`end` is a Lean keyword). -/
structure TranscriptSegment where
  id : Nat
  start : ℚ
  endTime : ℚ
  text : String
  speaker : Option String
  confidence : ℚ
  deriving DecidableEq, Repr

/-- A clip window over the absolute media timeline (frontend
`{ start: number; end: number }`). -/
structure ClipRange where
  start : ℚ
  endTime : ℚ
  deriving DecidableEq, Repr

/-- A rebased caption as produced by the captions endpoint: clip-relative
start/end plus the preserved absolute original times and text. -/
structure RebasedCaption where
  start : ℚ
  endTime : ℚ
  text : String
  original_start : ℚ
  original_end : ℚ
  deriving DecidableEq, Repr

/-- Modelled from the spec: the captions-for-range endpoint lives in
`backend/api/routes.py`, which is not part of the repository snapshot;
this definition is taken verbatim from the code quoted in
`ARCHITECTURE_CLIP_TIMELINE.md` (Filter Overlapping Segments / Rebase to
Relative Timestamps): select every segment with
`seg.end > clip_start and seg.start < clip_end`, then emit
`relative_start = max(0, seg.start - clip_start)` and
`relative_end = min(clip_end - clip_start, seg.end - clip_start)`,
preserving the original absolute times and the text. -/
def rebaseCaptions (segments : List TranscriptSegment) (clipStart clipEnd : ℚ) :
    List RebasedCaption :=
  (segments.filter (fun seg =>
      decide (seg.endTime > clipStart) && decide (seg.start < clipEnd))).map
    (fun seg =>
      { start := max 0 (seg.start - clipStart)
        endTime := min (clipEnd - clipStart) (seg.endTime - clipStart)
        text := seg.text
        original_start := seg.start
        original_end := seg.endTime })

/-- From `TranscriptViewer.tsx` (`isSegmentInRange`): a segment is
highlighted as in range when a clip range is set and
`start < clipRange.end && end > clipRange.start`. -/
def isSegmentInRange (clipRange : Option ClipRange) (start endTime : ℚ) : Bool :=
  match clipRange with
  | none => false
  | some r => decide (start < r.endTime) && decide (endTime > r.start)

/-- C3: a segment is selected for a clip window iff it overlaps the
window: `segment.end > clip_start AND segment.start < clip_end`.  Stated
for the in-range test of `TranscriptViewer.tsx` and for the selection
filter of the caption rebasing read; containment is not required, so a
partial segment at the clip edge (third conjunct: a segment `[120,130]`
against window `[125.5,140.2]`, not contained in it) is included. -/
theorem segment_selection_is_overlap_test (r : ClipRange) (s e : ℚ)
    (segments : List TranscriptSegment) (seg : TranscriptSegment)
    (hseg : seg ∈ segments) :
    (isSegmentInRange (some r) s e = true ↔ (e > r.start ∧ s < r.endTime)) ∧
    ((seg ∈ segments.filter (fun sg =>
        decide (sg.endTime > r.start) && decide (sg.start < r.endTime))) ↔
      (seg.endTime > r.start ∧ seg.start < r.endTime)) ∧
    (isSegmentInRange (some ⟨251/2, 701/5⟩) 120 130 = true ∧
      ¬ (120 ≥ (251 : ℚ)/2 ∧ 130 ≤ (701 : ℚ)/5)) := by
  refine ⟨?_, ?_, ?_⟩
  · simp [isSegmentInRange, and_comm]
  · simp [List.mem_filter, hseg]
  · refine ⟨by norm_num [isSegmentInRange], by norm_num⟩

/-- Witness for `segment_selection_is_overlap_test` at concrete inputs. -/
theorem segment_selection_is_overlap_test_witness :
    (⟨0, 120, 130, "hi", none, 1⟩ : TranscriptSegment) ∈
        [(⟨0, 120, 130, "hi", none, 1⟩ : TranscriptSegment)] ∧
      (isSegmentInRange (some ⟨251/2, 701/5⟩) 120 130 = true ↔
        ((130 : ℚ) > 251/2 ∧ (120 : ℚ) < 701/5)) :=
  ⟨List.mem_singleton.mpr rfl,
    (segment_selection_is_overlap_test ⟨251/2, 701/5⟩ 120 130
      [⟨0, 120, 130, "hi", none, 1⟩] ⟨0, 120, 130, "hi", none, 1⟩
      (List.mem_singleton.mpr rfl)).1⟩

/-- C2: every returned caption is the rebasing of a selected segment with
`relative_start = max(0, seg.start - s)` and
`relative_end = min(e - s, seg.end - s)`; hence `relative_start ≥ 0` and
`relative_end ≤ e - s`; and the window `[125.5, 140.2]` over a segment
spanning `[120, 130]` yields exactly one caption, with
`relative_start = 0` and `relative_end = 4.5`. -/
theorem rebaseCaptions_rebases_and_clamps (segments : List TranscriptSegment)
    (s e : ℚ) (hse : s < e) :
    (∀ seg ∈ segments, seg.endTime > s → seg.start < e →
      ({ start := max 0 (seg.start - s)
         endTime := min (e - s) (seg.endTime - s)
         text := seg.text
         original_start := seg.start
         original_end := seg.endTime } : RebasedCaption) ∈
        rebaseCaptions segments s e) ∧
    (∀ cap ∈ rebaseCaptions segments s e, ∃ seg ∈ segments,
      seg.endTime > s ∧ seg.start < e ∧
      cap.start = max 0 (seg.start - s) ∧
      cap.endTime = min (e - s) (seg.endTime - s)) ∧
    (∀ cap ∈ rebaseCaptions segments s e, 0 ≤ cap.start ∧ cap.endTime ≤ e - s) ∧
    rebaseCaptions [⟨0, 120, 130, "hello", none, 1⟩] (251/2) (701/5) =
      [⟨0, 9/2, "hello", 120, 130⟩] := by
  refine ⟨?_, ?_, ?_, ?_⟩
  · intro seg hseg h1 h2
    simp only [rebaseCaptions, List.mem_map]
    exact ⟨seg, List.mem_filter.mpr ⟨hseg, by simp [h1, h2]⟩, rfl⟩
  · intro cap hcap
    simp only [rebaseCaptions, List.mem_map, List.mem_filter] at hcap
    obtain ⟨seg, ⟨hseg, hsel⟩, hcapeq⟩ := hcap
    simp only [Bool.and_eq_true, decide_eq_true_eq] at hsel
    exact ⟨seg, hseg, hsel.1, hsel.2, by rw [← hcapeq], by rw [← hcapeq]⟩
  · intro cap hcap
    simp only [rebaseCaptions, List.mem_map, List.mem_filter] at hcap
    obtain ⟨seg, _, hcapeq⟩ := hcap
    constructor
    · rw [← hcapeq]; exact le_max_left _ _
    · rw [← hcapeq]; exact min_le_left _ _
  · norm_num [rebaseCaptions]

/-- Witness for `rebaseCaptions_rebases_and_clamps`: instantiated at the
window `[125.5, 140.2]` of the spec scenario. -/
theorem rebaseCaptions_rebases_and_clamps_witness :
    rebaseCaptions [⟨0, 120, 130, "hello", none, 1⟩] (251/2) (701/5) =
      [⟨0, 9/2, "hello", 120, 130⟩] :=
  (rebaseCaptions_rebases_and_clamps [⟨0, 120, 130, "hello", none, 1⟩]
    (251/2) (701/5) (by norm_num)).2.2.2

/-! ### ClipRangeEditor drag handling (`ClipRangeEditor.tsx`) -/

/-- Which handle is being dragged (`isDragging : 'start' | 'end'`). -/
inductive DragHandle
  | startHandle
  | endHandle
  deriving DecidableEq, Repr

/-- Snapping state of `findNearestBoundary`: `nearestDistance` starts at
`Infinity`, modelled as `none`. -/
structure SnapState where
  dist : Option ℚ
  boundary : ℚ

/-- One candidate-boundary check of `findNearestBoundary`: update the
nearest boundary when this one is strictly closer and within the 0.5s
snap threshold. -/
def snapCheck (time : ℚ) (st : SnapState) (b : ℚ) : SnapState :=
  let d := |b - time|
  let better := match st.dist with
    | none => true
    | some nd => decide (d < nd)
  if better && decide (d < 1/2) then ⟨some d, b⟩ else st

/-- From `ClipRangeEditor.tsx` (`findNearestBoundary`): scan all segment
starts and ends, tracking the nearest boundary within the snap
threshold; return the input time when none qualifies. -/
def findNearestBoundary (transcription : List TranscriptSegment) (time : ℚ) : ℚ :=
  (transcription.foldl
    (fun st seg => snapCheck time (snapCheck time st seg.start) seg.endTime)
    ⟨none, time⟩).boundary

/-- From `ClipRangeEditor.tsx` (`pixelToTime`): clamp the horizontal
fraction of the pointer inside the container to `[0,1]` and scale by the
media duration. -/
def pixelToTime (rectLeft rectWidth duration pixelX : ℚ) : ℚ :=
  let percent := max 0 (min 1 ((pixelX - rectLeft) / rectWidth))
  percent * duration

/-- From `ClipRangeEditor.tsx` (`handleMove` inside the drag effect):
clamp the dragged handle against the opposite handle (keeping at least
`minClipDuration`), against the media bounds, and against
`maxClipDuration` when it is specified. -/
def handleMove (dragging : DragHandle) (newTime : ℚ) (r : ClipRange)
    (duration minClipDuration : ℚ) (maxClipDuration : Option ℚ) : ClipRange :=
  match dragging with
  | .startHandle =>
    let newStart0 := max 0 (min newTime (r.endTime - minClipDuration))
    let newStart := match maxClipDuration with
      | some m => if r.endTime - newStart0 > m then r.endTime - m else newStart0
      | none => newStart0
    ⟨newStart, r.endTime⟩
  | .endHandle =>
    let newEnd0 := min duration (max newTime (r.start + minClipDuration))
    let newEnd := match maxClipDuration with
      | some m => if newEnd0 - r.start > m then r.start + m else newEnd0
      | none => newEnd0
    ⟨r.start, newEnd⟩

/-- The four range conditions of claim C8. -/
def validRange (r : ClipRange) (duration minClipDuration : ℚ)
    (maxClipDuration : Option ℚ) : Prop :=
  0 ≤ r.start ∧ r.endTime ≤ duration ∧
  minClipDuration ≤ r.endTime - r.start ∧
  ∀ m, maxClipDuration = some m → r.endTime - r.start ≤ m

/-- `handleMove` preserves the range conditions for an arbitrary target
time (in particular for any pointer position and any snapped boundary). -/
theorem handleMove_valid (dragging : DragHandle) (newTime : ℚ) (r : ClipRange)
    (duration minClipDuration : ℚ) (maxClipDuration : Option ℚ)
    (hr : validRange r duration minClipDuration maxClipDuration) :
    validRange (handleMove dragging newTime r duration minClipDuration maxClipDuration)
      duration minClipDuration maxClipDuration := by
  obtain ⟨h0, hd, hmin, hmax⟩ := hr
  cases dragging with
  | startHandle =>
    have hy : (0 : ℚ) ≤ r.endTime - minClipDuration := by linarith
    have hns0a : (0 : ℚ) ≤ max 0 (min newTime (r.endTime - minClipDuration)) :=
      le_max_left _ _
    have hns0b : max 0 (min newTime (r.endTime - minClipDuration)) ≤
        r.endTime - minClipDuration :=
      max_le hy (min_le_right _ _)
    cases maxClipDuration with
    | none =>
      simp only [handleMove, validRange]
      refine ⟨hns0a, hd, by linarith, ?_⟩
      intro m hm
      cases hm
    | some m =>
      have hm : r.endTime - r.start ≤ m := hmax m rfl
      simp only [handleMove, validRange]
      split
      · refine ⟨by linarith, hd, by linarith, ?_⟩
        intro m2 hm2
        cases hm2
        linarith
      · rename_i hnc
        push_neg at hnc
        refine ⟨hns0a, hd, by linarith, ?_⟩
        intro m2 hm2
        cases hm2
        linarith
  | endHandle =>
    have hsd : r.start + minClipDuration ≤ duration := by linarith
    have hne0a : min duration (max newTime (r.start + minClipDuration)) ≤ duration :=
      min_le_left _ _
    have hne0b : r.start + minClipDuration ≤
        min duration (max newTime (r.start + minClipDuration)) :=
      le_min hsd (le_max_right _ _)
    cases maxClipDuration with
    | none =>
      simp only [handleMove, validRange]
      refine ⟨h0, hne0a, by linarith, ?_⟩
      intro m hm
      cases hm
    | some m =>
      have hm : r.endTime - r.start ≤ m := hmax m rfl
      simp only [handleMove, validRange]
      split
      · refine ⟨h0, by linarith, by linarith, ?_⟩
        intro m2 hm2
        cases hm2
        linarith
      · rename_i hnc
        push_neg at hnc
        refine ⟨h0, hne0a, by linarith, ?_⟩
        intro m2 hm2
        cases hm2
        linarith

/-- C8: for every drag-move update — any pointer position mapped through
`pixelToTime` and then snapped by `findNearestBoundary` — if the media
is at least `minClipDuration` long and the current range satisfies the
four range conditions, then the range passed to `onRangeChange`
satisfies the same four conditions. -/
theorem clipRangeEditor_drag_preserves_bounds (dragging : DragHandle)
    (transcription : List TranscriptSegment)
    (rectLeft rectWidth pixelX duration minClipDuration : ℚ)
    (maxClipDuration : Option ℚ) (r : ClipRange)
    (hdur : minClipDuration ≤ duration)
    (hr : validRange r duration minClipDuration maxClipDuration) :
    validRange
      (handleMove dragging
        (findNearestBoundary transcription
          (pixelToTime rectLeft rectWidth duration pixelX))
        r duration minClipDuration maxClipDuration)
      duration minClipDuration maxClipDuration :=
  handleMove_valid dragging _ r duration minClipDuration maxClipDuration hr

/-- Witness for `clipRangeEditor_drag_preserves_bounds` at concrete
inputs: a 100s media item, range [10,40], min 5s, max 60s, one segment,
pointer at pixel 250 of a 1000px track starting at 0. -/
theorem clipRangeEditor_drag_preserves_bounds_witness :
    ((5 : ℚ) ≤ 100 ∧
      validRange ⟨10, 40⟩ 100 5 (some 60)) ∧
    validRange
      (handleMove .startHandle
        (findNearestBoundary [⟨0, 24, 26, "w", none, 1⟩]
          (pixelToTime 0 1000 100 250))
        ⟨10, 40⟩ 100 5 (some 60)) 100 5 (some 60) := by
  have h1 : validRange ⟨10, 40⟩ 100 5 (some 60) := by
    refine ⟨by norm_num, by norm_num, by norm_num, ?_⟩
    intro m hm
    cases hm
    norm_num
  exact ⟨⟨by norm_num, h1⟩,
    clipRangeEditor_drag_preserves_bounds .startHandle [⟨0, 24, 26, "w", none, 1⟩]
      0 1000 250 100 5 (some 60) ⟨10, 40⟩ (by norm_num) h1⟩

/-! ### Project store (`store/project.ts`) -/

/-- The step of the app flow. -/
inductive AppStep
  | upload
  | processing
  | highlights
  | export
  deriving DecidableEq, Repr

/-- Minimal model of `MediaInfo` from `lib/api.ts`. -/
structure MediaInfo where
  id : String
  duration : ℚ
  deriving DecidableEq, Repr

/-- Minimal model of `TranscriptionResult`. -/
structure TranscriptionResult where
  segments : List TranscriptSegment
  deriving DecidableEq, Repr

/-- Minimal model of a highlight window. -/
structure Highlight where
  id : String
  start : ℚ
  endTime : ℚ
  deriving DecidableEq, Repr

/-- Minimal model of `HighlightAnalysis`. -/
structure HighlightAnalysis where
  highlights : List Highlight
  deriving DecidableEq, Repr

/-- Minimal model of a generated clip row. -/
structure ClipResult where
  id : String
  deriving DecidableEq, Repr

/-- The data fields of the zustand project store (`store/project.ts`).
Actions are modelled as functions on this state. -/
structure ProjectStoreState where
  step : AppStep
  currentProjectId : Option String
  media : Option MediaInfo
  isProcessing : Bool
  processingStatus : String
  progress : ℚ
  transcription : Option TranscriptionResult
  highlights : Option HighlightAnalysis
  selectedHighlight : Option Highlight
  clipRange : Option ClipRange
  clips : List ClipResult
  selectedPlatforms : List String
  includeCaption : Bool
  audiogramStyle : String
  recentProjects : List String
  deriving DecidableEq, Repr

/-- `initialState` of `store/project.ts`. -/
def initialState : ProjectStoreState :=
  { step := .upload
    currentProjectId := none
    media := none
    isProcessing := false
    processingStatus := ""
    progress := 0
    transcription := none
    highlights := none
    selectedHighlight := none
    clipRange := none
    clips := []
    selectedPlatforms := ["instagram_reels", "tiktok"]
    includeCaption := true
    audiogramStyle := "cosmic"
    recentProjects := [] }

/-- `addToRecent`: drop any existing occurrence of the id, push it to the
front, keep at most 10 entries. -/
def addToRecent (recentProjects : List String) (mediaId : String) : List String :=
  let filtered := recentProjects.filter (fun pid => pid != mediaId)
  (mediaId :: filtered).take 10

/-- `reset`: back to `initialState` but preserving `recentProjects`. -/
def reset (s : ProjectStoreState) : ProjectStoreState :=
  { initialState with recentProjects := s.recentProjects }

/-- `clearAll`: back to `initialState` with `recentProjects` cleared
(used for logout). -/
def clearAll (_s : ProjectStoreState) : ProjectStoreState :=
  { initialState with recentProjects := [] }

/-- C9: `addToRecent` on a duplicate-free list yields a list headed by
the added id, duplicate-free, whose tail is an order-preserving sublist
of the prior list, of length at most 10. -/
theorem addToRecent_spec (recent : List String) (mediaId : String)
    (hnd : recent.Nodup) :
    (addToRecent recent mediaId).head? = some mediaId ∧
    (addToRecent recent mediaId).Nodup ∧
    (addToRecent recent mediaId).tail.Sublist recent ∧
    (addToRecent recent mediaId).length ≤ 10 := by
  have hfil : (recent.filter (fun pid => pid != mediaId)).Nodup := hnd.filter _
  have hmem : mediaId ∉ recent.filter (fun pid => pid != mediaId) := by
    intro hmem
    have := List.of_mem_filter hmem
    simp at this
  refine ⟨?_, ?_, ?_, ?_⟩
  · simp [addToRecent, List.take_succ_cons]
  · simp only [addToRecent]
    exact (List.take_sublist _ _).nodup (List.nodup_cons.mpr ⟨hmem, hfil⟩)
  · simp only [addToRecent, List.take_succ_cons, List.tail_cons]
    exact (List.take_sublist _ _).trans (List.filter_sublist _)
  · exact List.length_take_le _ _

/-- Witness for `addToRecent_spec` on a concrete recent list. -/
theorem addToRecent_spec_witness :
    (["a", "b", "c"] : List String).Nodup ∧
      (addToRecent ["a", "b", "c"] "b").head? = some "b" :=
  ⟨by decide, (addToRecent_spec ["a", "b", "c"] "b" (by decide)).1⟩

/-- C10: `reset` returns every field to its initial value except
`recentProjects`, which is preserved; `clearAll` returns every field to
its initial value and empties `recentProjects`. -/
theorem reset_clearAll_frame (s : ProjectStoreState) :
    (reset s).step = initialState.step ∧
    (reset s).currentProjectId = initialState.currentProjectId ∧
    (reset s).media = initialState.media ∧
    (reset s).isProcessing = initialState.isProcessing ∧
    (reset s).processingStatus = initialState.processingStatus ∧
    (reset s).progress = initialState.progress ∧
    (reset s).transcription = initialState.transcription ∧
    (reset s).highlights = initialState.highlights ∧
    (reset s).selectedHighlight = initialState.selectedHighlight ∧
    (reset s).clipRange = initialState.clipRange ∧
    (reset s).clips = initialState.clips ∧
    (reset s).selectedPlatforms = initialState.selectedPlatforms ∧
    (reset s).includeCaption = initialState.includeCaption ∧
    (reset s).audiogramStyle = initialState.audiogramStyle ∧
    (reset s).recentProjects = s.recentProjects ∧
    (clearAll s).step = initialState.step ∧
    (clearAll s).currentProjectId = initialState.currentProjectId ∧
    (clearAll s).media = initialState.media ∧
    (clearAll s).isProcessing = initialState.isProcessing ∧
    (clearAll s).processingStatus = initialState.processingStatus ∧
    (clearAll s).progress = initialState.progress ∧
    (clearAll s).transcription = initialState.transcription ∧
    (clearAll s).highlights = initialState.highlights ∧
    (clearAll s).selectedHighlight = initialState.selectedHighlight ∧
    (clearAll s).clipRange = initialState.clipRange ∧
    (clearAll s).clips = initialState.clips ∧
    (clearAll s).selectedPlatforms = initialState.selectedPlatforms ∧
    (clearAll s).includeCaption = initialState.includeCaption ∧
    (clearAll s).audiogramStyle = initialState.audiogramStyle ∧
    (clearAll s).recentProjects = [] := by
  and_intros <;> rfl

/-! ### Chunk-progress parsing (`parseChunkProgress` of
`ProcessingQueue.tsx` / `ProcessingView.tsx`)

The source matches the status message against the regular expression
`(?:chunk|clip)\s+(\d+)\s*\/\s*(\d+)(?:\s*\((\d+)%\))?` with the
case-insensitive flag, taking the leftmost match.  The matcher below is
a direct operational reading of that pattern: at each position try the
keyword (case-insensitively, `chunk` before `clip` as in the
alternation), then mandatory whitespace, the current-chunk digits, `/`
with optional surrounding whitespace, the total digits, and an optional
`(p%)` suffix.  Each sub-pattern is deterministic (digits, whitespace,
and the literal delimiters are disjoint character classes), so the
backtracking-free reading is faithful. -/

/-- JavaScript `\s` on the inputs in question: ASCII whitespace. -/
def isWSChar (c : Char) : Bool :=
  c = ' ' || c = '\t' || c = '\n' || c = '\r' || c = '\u000B' || c = '\u000C'

/-- JavaScript `\d`: ASCII decimal digits. -/
def isDigitChar (c : Char) : Bool :=
  '0' ≤ c && c ≤ '9'

/-- Value of one decimal digit. -/
def digitVal (c : Char) : Nat :=
  c.toNat - '0'.toNat

/-- Decimal value of a digit run (`parseInt(…, 10)` on the captured
group). -/
def digitsToNat (ds : List Char) : Nat :=
  ds.foldl (fun a c => a * 10 + digitVal c) 0

/-- The result shape `{ current, total, percentage? }`. -/
structure ChunkProgress where
  current : Nat
  total : Nat
  percentage : Option Nat
  deriving DecidableEq, Repr

/-- Case-insensitive literal match: consume `pat` (given lowercase) from
the head of the input, comparing lowercased characters. -/
def matchCI : List Char → List Char → Option (List Char)
  | [], cs => some cs
  | _ :: _, [] => none
  | p :: ps, c :: cs => if Char.toLower c = p then matchCI ps cs else none

/-- The keyword alternation `(?:chunk|clip)`. -/
def matchKeyword (cs : List Char) : Option (List Char) :=
  match matchCI ['c', 'h', 'u', 'n', 'k'] cs with
  | some r => some r
  | none => matchCI ['c', 'l', 'i', 'p'] cs

/-- `\s+`: at least one whitespace character, consumed greedily. -/
def skipWS1 (cs : List Char) : Option (List Char) :=
  match cs with
  | [] => none
  | c :: rest => if isWSChar c then some (rest.dropWhile isWSChar) else none

/-- `(\d+)`: a nonempty digit run, consumed greedily, with its value. -/
def takeDigits (cs : List Char) : Option (Nat × List Char) :=
  let ds := cs.takeWhile isDigitChar
  if ds.isEmpty then none
  else some (digitsToNat ds, cs.dropWhile isDigitChar)

/-- One literal character. -/
def expectChar (ch : Char) : List Char → Option (List Char)
  | [] => none
  | c :: rest => if c = ch then some rest else none

/-- The optional suffix `\s*\((\d+)%\)`. -/
def matchPercent (cs : List Char) : Option Nat :=
  match expectChar '(' (cs.dropWhile isWSChar) with
  | none => none
  | some cs2 =>
    match takeDigits cs2 with
    | none => none
    | some (p, cs3) =>
      match expectChar '%' cs3 with
      | none => none
      | some cs4 =>
        match expectChar ')' cs4 with
        | none => none
        | some _ => some p

/-- Match the whole pattern at the head of the input. -/
def matchAt (cs : List Char) : Option ChunkProgress :=
  match matchKeyword cs with
  | none => none
  | some r1 =>
    match skipWS1 r1 with
    | none => none
    | some r2 =>
      match takeDigits r2 with
      | none => none
      | some (k, r3) =>
        match expectChar '/' (r3.dropWhile isWSChar) with
        | none => none
        | some r4 =>
          match takeDigits (r4.dropWhile isWSChar) with
          | none => none
          | some (n, r5) => some ⟨k, n, matchPercent r5⟩

/-- Leftmost match: try each position left to right (`String.match` with
a non-global regex). -/
def scanChunk : List Char → Option ChunkProgress
  | [] => none
  | c :: rest =>
    match matchAt (c :: rest) with
    | some r => some r
    | none => scanChunk rest

/-- `parseChunkProgress` from `ProcessingQueue.tsx` (and, identically,
`ProcessingView.tsx`): `null` for a `null` message, otherwise the
leftmost chunk/clip count match, or `null` when none exists. -/
def parseChunkProgress (message : Option String) : Option ChunkProgress :=
  match message with
  | none => none
  | some s => scanChunk s.data

/-! ### The fragment shape of claim C6, stated from the claim's words:
a fragment `chunk k/N` (or `clip k/N`, case-insensitively) with decimal
integers `k` and `N`, optionally followed by `(p%)`. -/

/-- A run of whitespace characters (possibly empty). -/
def IsWSRun (w : List Char) : Prop := ∀ c ∈ w, isWSChar c = true

/-- A nonempty run of decimal digits. -/
def IsDigitRun (ds : List Char) : Prop := ds ≠ [] ∧ ∀ c ∈ ds, isDigitChar c = true

/-- The optional `(p%)` tail of a fragment. -/
def PercentTail (rest : List Char) : Option Nat → Prop
  | some pv => ∃ w4 ds3 rest2, IsWSRun w4 ∧ IsDigitRun ds3 ∧
      digitsToNat ds3 = pv ∧
      rest = w4 ++ ('(' :: (ds3 ++ ('%' :: (')' :: rest2))))
  | none => True

/-- A chunk-count fragment starts exactly at the head of `cs`, with
current value `k`, total `n`, and optional percentage `p`. -/
def FragmentAt (cs : List Char) (k n : Nat) (p : Option Nat) : Prop :=
  ∃ kw w1 ds1 w2 w3 ds2 rest,
    (kw.map Char.toLower = ['c', 'h', 'u', 'n', 'k'] ∨
      kw.map Char.toLower = ['c', 'l', 'i', 'p']) ∧
    w1 ≠ [] ∧ IsWSRun w1 ∧ IsWSRun w2 ∧ IsWSRun w3 ∧
    IsDigitRun ds1 ∧ IsDigitRun ds2 ∧
    digitsToNat ds1 = k ∧ digitsToNat ds2 = n ∧
    cs = kw ++ (w1 ++ (ds1 ++ (w2 ++ ('/' :: (w3 ++ (ds2 ++ rest)))))) ∧
    PercentTail rest p

/-- A chunk-count fragment occurs somewhere in `cs`. -/
def ContainsChunkFragment (cs : List Char) : Prop :=
  ∃ suf k n p, suf <:+ cs ∧ FragmentAt suf k n p

/-! ### Character-class facts -/

theorem ws_not_digit {c : Char} (h : isWSChar c = true) : isDigitChar c = false := by
  simp only [isWSChar, Bool.or_eq_true, decide_eq_true_eq] at h
  rcases h with ((((h | h) | h) | h) | h) | h <;> subst h <;> decide

theorem digit_not_ws {c : Char} (h : isDigitChar c = true) : isWSChar c = false := by
  cases hw : isWSChar c with
  | false => rfl
  | true => rw [ws_not_digit hw] at h; cases h

/-! ### List scanning facts -/

theorem dropWhile_append_all {p : Char → Bool} {w rest : List Char}
    (hw : ∀ c ∈ w, p c = true) :
    (w ++ rest).dropWhile p = rest.dropWhile p := by
  induction w with
  | nil => rfl
  | cons a t ih =>
    rw [List.cons_append, List.dropWhile_cons, hw a (List.mem_cons_self a t)]
    exact if_pos rfl ▸ ih (fun c hc => hw c (List.mem_cons_of_mem a hc))

theorem dropWhile_eq_self_of_head {p : Char → Bool} {rest : List Char}
    (h : ∀ r rs, rest = r :: rs → p r = false) :
    rest.dropWhile p = rest := by
  cases rest with
  | nil => rfl
  | cons r rs => rw [List.dropWhile_cons, h r rs rfl]; simp

theorem takeWhile_append_eq {p : Char → Bool} {ds rest : List Char}
    (hds : ∀ c ∈ ds, p c = true)
    (hrest : ∀ r rs, rest = r :: rs → p r = false) :
    (ds ++ rest).takeWhile p = ds ∧ (ds ++ rest).dropWhile p = rest := by
  constructor
  · induction ds with
    | nil =>
      simp only [List.nil_append]
      cases rest with
      | nil => rfl
      | cons r rs => rw [List.takeWhile_cons, hrest r rs rfl]; simp
    | cons a t ih =>
      rw [List.cons_append, List.takeWhile_cons, hds a (List.mem_cons_self a t)]
      simp only [if_true]
      rw [ih (fun c hc => hds c (List.mem_cons_of_mem a hc))]
  · rw [dropWhile_append_all hds, dropWhile_eq_self_of_head hrest]

theorem head_digit_of_append_cons {ds X rs : List Char} {r : Char}
    (hne : ds ≠ []) (hall : ∀ c ∈ ds, isDigitChar c = true)
    (h : ds ++ X = r :: rs) : isDigitChar r = true := by
  cases ds with
  | nil => exact absurd rfl hne
  | cons a t =>
    rw [List.cons_append] at h
    injection h with h1 _
    subst h1
    exact hall a (List.mem_cons_self a t)

theorem head_ws_or_eq {w X rs : List Char} {c r : Char}
    (hw : IsWSRun w) (h : w ++ (c :: X) = r :: rs) :
    isWSChar r = true ∨ r = c := by
  cases w with
  | nil =>
    rw [List.nil_append] at h
    injection h with h1 _
    exact Or.inr h1.symm
  | cons a t =>
    rw [List.cons_append] at h
    injection h with h1 _
    subst h1
    exact Or.inl (hw a (List.mem_cons_self a t))

/-! ### Soundness of the matcher with respect to the fragment shape -/

theorem matchCI_sound : ∀ (pat cs r : List Char), matchCI pat cs = some r →
    ∃ kw, kw.map Char.toLower = pat ∧ cs = kw ++ r := by
  intro pat
  induction pat with
  | nil =>
    intro cs r h
    simp only [matchCI, Option.some.injEq] at h
    exact ⟨[], rfl, by rw [h, List.nil_append]⟩
  | cons p ps ih =>
    intro cs r h
    cases cs with
    | nil => cases h
    | cons c cs2 =>
      simp only [matchCI] at h
      split at h
      · rename_i htl
        obtain ⟨kw2, hkw2, hcs2⟩ := ih cs2 r h
        exact ⟨c :: kw2, by simp [htl, hkw2], by rw [List.cons_append, hcs2]⟩
      · cases h

theorem matchKeyword_sound {cs r : List Char} (h : matchKeyword cs = some r) :
    ∃ kw, (kw.map Char.toLower = ['c', 'h', 'u', 'n', 'k'] ∨
      kw.map Char.toLower = ['c', 'l', 'i', 'p']) ∧ cs = kw ++ r := by
  unfold matchKeyword at h
  cases hck : matchCI ['c', 'h', 'u', 'n', 'k'] cs with
  | some r2 =>
    rw [hck] at h
    injection h with h
    subst h
    obtain ⟨kw, hkw, hcs⟩ := matchCI_sound _ _ _ hck
    exact ⟨kw, Or.inl hkw, hcs⟩
  | none =>
    rw [hck] at h
    obtain ⟨kw, hkw, hcs⟩ := matchCI_sound _ _ _ h
    exact ⟨kw, Or.inr hkw, hcs⟩

theorem skipWS1_sound {cs r : List Char} (h : skipWS1 cs = some r) :
    ∃ w, w ≠ [] ∧ IsWSRun w ∧ cs = w ++ r := by
  cases cs with
  | nil => cases h
  | cons c rest =>
    simp only [skipWS1] at h
    split at h
    · rename_i hc
      injection h with h
      refine ⟨c :: rest.takeWhile isWSChar, by simp, ?_, ?_⟩
      · intro x hx
        rcases List.mem_cons.mp hx with rfl | hx
        · exact hc
        · exact List.mem_takeWhile_imp hx
      · rw [← h, List.cons_append, List.takeWhile_append_dropWhile]
    · cases h

theorem takeDigits_sound {cs r : List Char} {v : Nat}
    (h : takeDigits cs = some (v, r)) :
    ∃ ds, IsDigitRun ds ∧ digitsToNat ds = v ∧ cs = ds ++ r := by
  simp only [takeDigits] at h
  split at h
  · cases h
  · rename_i hne
    simp only [Option.some.injEq, Prod.mk.injEq] at h
    obtain ⟨hv, hr⟩ := h
    refine ⟨cs.takeWhile isDigitChar, ⟨?_, ?_⟩, hv, ?_⟩
    · intro hnil
      rw [hnil] at hne
      exact hne rfl
    · intro c hc
      exact List.mem_takeWhile_imp hc
    · rw [← hr]
      exact (List.takeWhile_append_dropWhile _ _).symm

theorem expectChar_sound {ch : Char} {cs r : List Char}
    (h : expectChar ch cs = some r) : cs = ch :: r := by
  cases cs with
  | nil => cases h
  | cons c rest =>
    simp only [expectChar] at h
    split at h
    · rename_i hc
      injection h with h
      rw [hc, h]
    · cases h

theorem dropWhile_decomp (p : Char → Bool) (cs : List Char) :
    ∃ w, (∀ c ∈ w, p c = true) ∧ cs = w ++ cs.dropWhile p :=
  ⟨cs.takeWhile p, fun _ hc => List.mem_takeWhile_imp hc,
    (List.takeWhile_append_dropWhile _ _).symm⟩

theorem matchPercent_sound {cs : List Char} {p : Nat}
    (h : matchPercent cs = some p) : PercentTail cs (some p) := by
  unfold matchPercent at h
  cases h1 : expectChar '(' (cs.dropWhile isWSChar) with
  | none => simp only [h1] at h; exact Option.noConfusion h
  | some cs2 =>
    simp only [h1] at h
    cases h2 : takeDigits cs2 with
    | none => simp only [h2] at h; exact Option.noConfusion h
    | some pr =>
      obtain ⟨pv, cs3⟩ := pr
      simp only [h2] at h
      cases h3 : expectChar '%' cs3 with
      | none => simp only [h3] at h; exact Option.noConfusion h
      | some cs4 =>
        simp only [h3] at h
        cases h4 : expectChar ')' cs4 with
        | none => simp only [h4] at h; exact Option.noConfusion h
        | some cs5 =>
          simp only [h4, Option.some.injEq] at h
          obtain ⟨w4, hw4, hcs⟩ := dropWhile_decomp isWSChar cs
          have e1 := expectChar_sound h1
          obtain ⟨ds3, hds3, hval, e2⟩ := takeDigits_sound h2
          have e3 := expectChar_sound h3
          have e4 := expectChar_sound h4
          refine ⟨w4, ds3, cs5, hw4, hds3, by rw [hval, h], ?_⟩
          rw [hcs, e1, e2, e3, e4]

theorem matchAt_sound {cs : List Char} {cp : ChunkProgress}
    (h : matchAt cs = some cp) :
    FragmentAt cs cp.current cp.total cp.percentage := by
  unfold matchAt at h
  cases h1 : matchKeyword cs with
  | none => simp only [h1] at h; exact Option.noConfusion h
  | some r1 =>
    simp only [h1] at h
    cases h2 : skipWS1 r1 with
    | none => simp only [h2] at h; exact Option.noConfusion h
    | some r2 =>
      simp only [h2] at h
      cases h3 : takeDigits r2 with
      | none => simp only [h3] at h; exact Option.noConfusion h
      | some kr3 =>
        obtain ⟨k, r3⟩ := kr3
        simp only [h3] at h
        cases h4 : expectChar '/' (r3.dropWhile isWSChar) with
        | none => simp only [h4] at h; exact Option.noConfusion h
        | some r4 =>
          simp only [h4] at h
          cases h5 : takeDigits (r4.dropWhile isWSChar) with
          | none => simp only [h5] at h; exact Option.noConfusion h
          | some nr5 =>
            obtain ⟨n, r5⟩ := nr5
            simp only [h5, Option.some.injEq] at h
            subst h
            obtain ⟨kw, hkw, he1⟩ := matchKeyword_sound h1
            obtain ⟨w1, hw1ne, hw1, he2⟩ := skipWS1_sound h2
            obtain ⟨ds1, hds1, hv1, he3⟩ := takeDigits_sound h3
            obtain ⟨w2, hw2, he4a⟩ := dropWhile_decomp isWSChar r3
            have he4b := expectChar_sound h4
            obtain ⟨w3, hw3, he5a⟩ := dropWhile_decomp isWSChar r4
            obtain ⟨ds2, hds2, hv2, he5b⟩ := takeDigits_sound h5
            refine ⟨kw, w1, ds1, w2, w3, ds2, r5, hkw, hw1ne, hw1, hw2, hw3,
              hds1, hds2, hv1, hv2, ?_, ?_⟩
            · rw [he1, he2, he3, he4a, he4b, he5a, he5b]
            · cases hp : matchPercent r5 with
              | none => trivial
              | some pv => exact matchPercent_sound hp

/-! ### Completeness: wherever a fragment occurs, the matcher succeeds -/

theorem matchCI_complete : ∀ (kw rest pat : List Char),
    kw.map Char.toLower = pat → matchCI pat (kw ++ rest) = some rest := by
  intro kw
  induction kw with
  | nil =>
    intro rest pat h
    rw [List.map_nil] at h
    subst h
    rfl
  | cons a t ih =>
    intro rest pat h
    cases pat with
    | nil => simp at h
    | cons p ps =>
      simp only [List.map_cons, List.cons.injEq] at h
      obtain ⟨h1, h2⟩ := h
      rw [List.cons_append]
      simp only [matchCI, h1, if_pos]
      exact ih rest ps h2

theorem matchCI_chunk_clip {kw rest : List Char}
    (h : kw.map Char.toLower = ['c', 'l', 'i', 'p']) :
    matchCI ['c', 'h', 'u', 'n', 'k'] (kw ++ rest) = none := by
  cases kw with
  | nil => simp at h
  | cons a t =>
    cases t with
    | nil => simp at h
    | cons b t =>
      simp only [List.map_cons, List.cons.injEq] at h
      obtain ⟨h1, h2, _⟩ := h
      rw [List.cons_append, List.cons_append]
      simp [matchCI, h1, h2]

theorem matchKeyword_complete {kw rest : List Char}
    (h : kw.map Char.toLower = ['c', 'h', 'u', 'n', 'k'] ∨
      kw.map Char.toLower = ['c', 'l', 'i', 'p']) :
    matchKeyword (kw ++ rest) = some rest := by
  rcases h with h | h
  · simp [matchKeyword, matchCI_complete kw rest _ h]
  · simp [matchKeyword, matchCI_chunk_clip h, matchCI_complete kw rest _ h]

theorem skipWS1_complete {w rest : List Char} (hne : w ≠ []) (hws : IsWSRun w)
    (hrest : ∀ r rs, rest = r :: rs → isWSChar r = false) :
    skipWS1 (w ++ rest) = some rest := by
  cases w with
  | nil => exact absurd rfl hne
  | cons c w2 =>
    have hc : isWSChar c = true := hws c (List.mem_cons_self c w2)
    rw [List.cons_append]
    simp only [skipWS1, hc, if_pos]
    rw [dropWhile_append_all (fun x hx => hws x (List.mem_cons_of_mem c hx)),
      dropWhile_eq_self_of_head hrest]

theorem takeDigits_complete {ds rest : List Char} (hds : IsDigitRun ds)
    (hrest : ∀ r rs, rest = r :: rs → isDigitChar r = false) :
    takeDigits (ds ++ rest) = some (digitsToNat ds, rest) := by
  obtain ⟨hne, hall⟩ := hds
  obtain ⟨ht, hd⟩ := takeWhile_append_eq hall hrest
  simp only [takeDigits, ht, hd]
  have hE : ds.isEmpty = false := by
    cases ds with
    | nil => exact absurd rfl hne
    | cons a t => rfl
  rw [hE]
  rfl

theorem takeDigits_isSome_of_digit {c : Char} {l : List Char}
    (hc : isDigitChar c = true) :
    ∃ v r, takeDigits (c :: l) = some (v, r) := by
  refine ⟨digitsToNat ((c :: l).takeWhile isDigitChar),
    (c :: l).dropWhile isDigitChar, ?_⟩
  have hE : ((c :: l).takeWhile isDigitChar).isEmpty = false := by
    rw [List.takeWhile_cons, if_pos hc]
    rfl
  simp only [takeDigits, hE]
  rfl

theorem matchAt_complete {cs : List Char} {k n : Nat} {p : Option Nat}
    (h : FragmentAt cs k n p) : ∃ cp, matchAt cs = some cp := by
  obtain ⟨kw, w1, ds1, w2, w3, ds2, rest, hkw, hw1ne, hw1, hw2, hw3, hds1,
    hds2, _, _, hcs, _⟩ := h
  subst hcs
  have hrest1 : ∀ r rs,
      ds1 ++ (w2 ++ ('/' :: (w3 ++ (ds2 ++ rest)))) = r :: rs →
      isWSChar r = false := fun r rs hr =>
    digit_not_ws (head_digit_of_append_cons hds1.1 hds1.2 hr)
  have hrest2 : ∀ r rs, w2 ++ ('/' :: (w3 ++ (ds2 ++ rest))) = r :: rs →
      isDigitChar r = false := by
    intro r rs hr
    rcases head_ws_or_eq hw2 hr with hws | rfl
    · exact ws_not_digit hws
    · rfl
  have e2 : (w2 ++ ('/' :: (w3 ++ (ds2 ++ rest)))).dropWhile isWSChar =
      '/' :: (w3 ++ (ds2 ++ rest)) := by
    rw [dropWhile_append_all hw2, List.dropWhile_cons]
    rfl
  have e3 : expectChar '/' ('/' :: (w3 ++ (ds2 ++ rest))) =
      some (w3 ++ (ds2 ++ rest)) := by
    simp [expectChar]
  have hrest3 : ∀ r rs, ds2 ++ rest = r :: rs → isWSChar r = false :=
    fun r rs hr => digit_not_ws (head_digit_of_append_cons hds2.1 hds2.2 hr)
  have e4 : (w3 ++ (ds2 ++ rest)).dropWhile isWSChar = ds2 ++ rest := by
    rw [dropWhile_append_all hw3, dropWhile_eq_self_of_head hrest3]
  obtain ⟨v, r, e5⟩ : ∃ v r, takeDigits (ds2 ++ rest) = some (v, r) := by
    cases hd2 : ds2 with
    | nil => exact absurd hd2 hds2.1
    | cons c t =>
      rw [List.cons_append]
      exact takeDigits_isSome_of_digit
        (hds2.2 c (by rw [hd2]; exact List.mem_cons_self c t))
  simp only [matchAt, matchKeyword_complete hkw,
    skipWS1_complete hw1ne hw1 hrest1, takeDigits_complete hds1 hrest2,
    e2, e3, e4, e5]
  exact ⟨_, rfl⟩

/-! ### Scanning for the leftmost match -/

theorem matchAt_nil : matchAt [] = none := rfl

theorem scanChunk_sound : ∀ (cs : List Char) (v : ChunkProgress),
    scanChunk cs = some v → ∃ suf, suf <:+ cs ∧ matchAt suf = some v := by
  intro cs
  induction cs with
  | nil => intro v h; cases h
  | cons c rest ih =>
    intro v h
    unfold scanChunk at h
    cases hm : matchAt (c :: rest) with
    | some r =>
      simp only [hm, Option.some.injEq] at h
      subst h
      exact ⟨c :: rest, List.suffix_refl _, hm⟩
    | none =>
      simp only [hm] at h
      obtain ⟨suf, hsuf, hmm⟩ := ih v h
      exact ⟨suf, hsuf.trans (List.suffix_cons c rest), hmm⟩

theorem scanChunk_complete : ∀ (cs suf : List Char), suf <:+ cs →
    matchAt suf ≠ none → scanChunk cs ≠ none := by
  intro cs
  induction cs with
  | nil =>
    intro suf hsuf hm
    rw [List.suffix_nil.mp hsuf] at hm
    exact absurd matchAt_nil hm
  | cons c rest ih =>
    intro suf hsuf hm
    rcases List.suffix_cons_iff.mp hsuf with rfl | h2
    · unfold scanChunk
      cases hmc : matchAt (c :: rest) with
      | some r => simp
      | none => exact absurd hmc hm
    · unfold scanChunk
      cases hmc : matchAt (c :: rest) with
      | some r => simp
      | none =>
        simp only
        exact ih suf h2 hm

/-- C6: `parseChunkProgress` returns `null` on a `null` message; it
returns `null` exactly when the message contains no `chunk k/N` /
`clip k/N` fragment; whenever it returns a result, the message contains
a fragment whose current, total and optional percentage are exactly the
returned values; and on the concrete message
`Transcribing chunk 2/5 (40%)` it returns current 2, total 5,
percentage 40. -/
theorem parseChunkProgress_spec :
    parseChunkProgress none = none ∧
    (∀ s : String, parseChunkProgress (some s) = none ↔
      ¬ ContainsChunkFragment s.data) ∧
    (∀ (s : String) (cp : ChunkProgress), parseChunkProgress (some s) = some cp →
      ∃ suf, suf <:+ s.data ∧ FragmentAt suf cp.current cp.total cp.percentage) ∧
    parseChunkProgress (some "Transcribing chunk 2/5 (40%)") =
      some ⟨2, 5, some 40⟩ := by
  refine ⟨rfl, ?_, ?_, by rfl⟩
  · intro s
    simp only [parseChunkProgress]
    constructor
    · intro h hC
      obtain ⟨suf, k, n, p, hsuf, hfr⟩ := hC
      obtain ⟨cp, hcp⟩ := matchAt_complete hfr
      have hne : matchAt suf ≠ none := by rw [hcp]; exact Option.some_ne_none cp
      exact scanChunk_complete s.data suf hsuf hne h
    · intro hnc
      cases hsc : scanChunk s.data with
      | none => rfl
      | some v =>
        obtain ⟨suf, hsuf, hm⟩ := scanChunk_sound s.data v hsc
        exact absurd ⟨suf, v.current, v.total, v.percentage, hsuf,
          matchAt_sound hm⟩ hnc
  · intro s cp h
    simp only [parseChunkProgress] at h
    obtain ⟨suf, hsuf, hm⟩ := scanChunk_sound s.data cp h
    exact ⟨suf, hsuf, matchAt_sound hm⟩

/-- Witness for `parseChunkProgress_spec`: its soundness part applied to
the concrete message `chunk 2/5`. -/
theorem parseChunkProgress_spec_witness :
    ∃ suf, suf <:+ ("chunk 2/5" : String).data ∧ FragmentAt suf 2 5 none :=
  parseChunkProgress_spec.2.2.1 "chunk 2/5" ⟨2, 5, none⟩ rfl

/-! ### ProcessingView stage derivation and progress-bar rendering
(`ProcessingView.tsx`) -/

/-- JavaScript `toLowerCase` on the ASCII status strings in question. -/
def strToLower (s : String) : String :=
  ⟨s.data.map Char.toLower⟩

/-- Prefix test on character lists. -/
def isPrefixList : List Char → List Char → Bool
  | [], _ => true
  | _ :: _, [] => false
  | a :: as, b :: bs => a = b && isPrefixList as bs

/-- JavaScript `String.includes`. -/
def containsSub : List Char → List Char → Bool
  | [], needle => needle.isEmpty
  | c :: rest, needle => isPrefixList needle (c :: rest) || containsSub rest needle

/-- `hay.includes(needle)` on strings. -/
def strIncludes (hay needle : String) : Bool :=
  containsSub hay.data needle.data

/-- The stages of `getStageFromStatus`. -/
inductive ViewStage
  | downloading
  | chunking
  | transcribing
  | analyzing
  | highlighting
  | generating
  | complete
  | error
  | unknown
  deriving DecidableEq, Repr

/-- From `ProcessingView.tsx` (`getStageFromStatus`): derive the display
stage and whether the progress is indeterminate from the raw status
string. -/
def getStageFromStatus (status : String) : ViewStage × Bool :=
  let statusLower := strToLower status
  if statusLower = "pending" || statusLower = "downloading" then
    (.downloading, true)
  else if statusLower = "transcribing" then
    if strIncludes statusLower "chunk" then (.chunking, false)
    else (.transcribing, true)
  else if statusLower = "analyzing" then
    if strIncludes statusLower "highlight" then (.highlighting, true)
    else (.analyzing, true)
  else if strIncludes statusLower "generating" || strIncludes statusLower "clip" then
    (.generating, false)
  else if statusLower = "complete" then (.complete, false)
  else if statusLower = "error" then (.error, false)
  else (.unknown, true)

/-- The progress-relevant component state after one `pollStatus` tick. -/
structure ViewProgressState where
  chunkProgress : Option ChunkProgress
  currentStage : ViewStage
  isIndeterminate : Bool
  deriving DecidableEq, Repr

/-- From `ProcessingView.tsx` (`pollStatus`): parse the chunk progress
from the status message, derive the stage, and set
`isIndeterminate = stageInfo.isIndeterminate && !chunkInfo`. -/
def pollUpdate (status : String) (statusMessage : Option String) :
    ViewProgressState :=
  let chunkInfo := parseChunkProgress statusMessage
  let stageInfo := getStageFromStatus status
  { chunkProgress := chunkInfo
    currentStage := stageInfo.1
    isIndeterminate := stageInfo.2 && chunkInfo.isNone }

/-- What the progress-bar area renders. -/
inductive ProgressBarView
  | determinate (widthPercent : ℚ) (percentLabel : Option Nat)
  | indeterminate
  | completeBar
  | noBar
  deriving DecidableEq, Repr

/-- From the `ProcessingView.tsx` render tree: the conditional chain
`!isIndeterminate && chunkProgress ? determinate : isIndeterminate ?
indeterminate : currentStage === 'complete' ? full green bar : null`,
with the determinate width taken from the parsed percentage when
present, else `current / total * 100`. -/
def renderProgressBar (v : ViewProgressState) : ProgressBarView :=
  match v.isIndeterminate, v.chunkProgress with
  | false, some cp =>
    .determinate
      (match cp.percentage with
        | some p => (p : ℚ)
        | none => (cp.current : ℚ) / (cp.total : ℚ) * 100)
      cp.percentage
  | true, _ => .indeterminate
  | false, none => if v.currentStage = .complete then .completeBar else .noBar

/-- C5 counterexamples: in the polled state for status `complete` with
message `Processing complete!` — a message that contains no chunk-count
fragment — the view renders the filled completion bar, not an
indeterminate indicator; and for status `error` with an empty message it
renders no indicator at all rather than an indeterminate one. -/
theorem progress_bar_counterexample :
    renderProgressBar (pollUpdate "complete" (some "Processing complete!")) =
      .completeBar ∧
    parseChunkProgress (some "Processing complete!") = none ∧
    (¬ ContainsChunkFragment ("Processing complete!" : String).data) ∧
    renderProgressBar (pollUpdate "complete" (some "Processing complete!")) ≠
      .indeterminate ∧
    renderProgressBar (pollUpdate "error" (some "Processing failed")) = .noBar := by
  refine ⟨rfl, rfl, ?_, by decide, rfl⟩
  intro hC
  obtain ⟨suf, k, n, p, hsuf, hfr⟩ := hC
  obtain ⟨cp, hcp⟩ := matchAt_complete hfr
  have hne : matchAt suf ≠ none := by rw [hcp]; exact Option.some_ne_none cp
  exact scanChunk_complete _ suf hsuf hne rfl

/-- C5 amended: the determinate (count-driven) bar is rendered exactly
when the polled status message parses a `chunk k/N` / `clip k/N` count,
and its width and label are derived from that count; when the message
has no count, the view renders the indeterminate animation whenever the
derived stage is indeterminate, the static full completion bar when the
stage is `complete`, and no bar otherwise — never a fabricated
percentage. -/
theorem progress_bar_amended (status : String) (message : Option String) :
    ((∃ w pl, renderProgressBar (pollUpdate status message) =
        .determinate w pl) ↔ parseChunkProgress message ≠ none) ∧
    (∀ cp : ChunkProgress, parseChunkProgress message = some cp →
      renderProgressBar (pollUpdate status message) =
        .determinate
          (match cp.percentage with
            | some p => (p : ℚ)
            | none => (cp.current : ℚ) / (cp.total : ℚ) * 100)
          cp.percentage) ∧
    (parseChunkProgress message = none →
      renderProgressBar (pollUpdate status message) =
        if (getStageFromStatus status).2 then .indeterminate
        else if (getStageFromStatus status).1 = .complete then .completeBar
        else .noBar) := by
  cases hp : parseChunkProgress message with
  | some cp =>
    refine ⟨?_, ?_, ?_⟩
    · simp [pollUpdate, renderProgressBar, hp]
    · intro cp2 hcp2
      injection hcp2 with hcp2
      subst hcp2
      simp [pollUpdate, renderProgressBar, hp]
    · intro hnone
      cases hnone
  | none =>
    cases hs2 : (getStageFromStatus status).2 with
    | true =>
      refine ⟨?_, ?_, ?_⟩
      · simp [pollUpdate, renderProgressBar, hp, hs2]
      · intro cp2 hcp2
        cases hcp2
      · intro _
        simp [pollUpdate, renderProgressBar, hp, hs2]
    | false =>
      refine ⟨?_, ?_, ?_⟩
      · constructor
        · rintro ⟨w, pl, hw⟩
          simp [pollUpdate, renderProgressBar, hp, hs2] at hw
          split at hw <;> cases hw
        · intro hne
          exact absurd rfl hne
      · intro cp2 hcp2
        cases hcp2
      · intro _
        simp [pollUpdate, renderProgressBar, hp, hs2]

/-- Witness for `progress_bar_amended`: status `transcribing` with
message `chunk 2/5 (40%)` renders the determinate bar at width 40 with
label 40. -/
theorem progress_bar_amended_witness :
    renderProgressBar (pollUpdate "transcribing" (some "chunk 2/5 (40%)")) =
      .determinate ((40 : Nat) : ℚ) (some 40) :=
  (progress_bar_amended "transcribing" (some "chunk 2/5 (40%)")).2.1
    ⟨2, 5, some 40⟩ rfl

/-! ### Processing queue polling (`ProcessingQueue.tsx`) -/

/-- From `ProcessingQueue.tsx` (`isActiveStatus`): a status keeps a
project in the queue iff it is one of the four non-terminal stages. -/
def isActiveStatus (status : String) : Bool :=
  let statusLower := strToLower status
  statusLower = "pending" || statusLower = "downloading" ||
    statusLower = "transcribing" || statusLower = "analyzing"

/-- A queue entry (`ProcessingItem`). -/
structure ProcessingItem where
  media_id : String
  title : String
  status : String
  status_message : Option String
  chunkProgress : Option ChunkProgress
  deriving DecidableEq, Repr

/-- The lightweight status read (`ProjectStatusResponse`). -/
structure StatusResponse where
  status : String
  status_message : Option String
  deriving DecidableEq, Repr

/-- Component state: the queue items and the keys of the
`pollingRefs` map (one interval timer per media id). -/
structure QueueState where
  items : List ProcessingItem
  timers : List String
  deriving DecidableEq, Repr

/-- `stopPolling`: clear the interval and delete the map entry. -/
def stopPolling (s : QueueState) (mediaId : String) : QueueState :=
  { s with timers := s.timers.filter (fun tid => tid != mediaId) }

/-- `startPolling`: stop any existing polling, then register a new
interval for the id. -/
def startPolling (s : QueueState) (mediaId : String) : QueueState :=
  { s with timers := mediaId :: s.timers.filter (fun tid => tid != mediaId) }

/-- From `ProcessingQueue.tsx` (`pollProjectStatus`): one poll tick for
`mediaId`.  `authBefore`/`authAfter` model the authenticated flag before
and after the async status fetch; `resp = none` models the fetch
throwing (caught branch). -/
def pollProjectStatus (s : QueueState) (mediaId : String)
    (authBefore authAfter : Bool) (resp : Option StatusResponse) : QueueState :=
  if !authBefore then stopPolling s mediaId
  else
    match resp with
    | none =>
      stopPolling
        { s with items := s.items.filter (fun it => it.media_id != mediaId) }
        mediaId
    | some st =>
      if !authAfter then stopPolling s mediaId
      else if !isActiveStatus st.status then
        stopPolling
          { s with items := s.items.filter (fun it => it.media_id != mediaId) }
          mediaId
      else
        { s with items := s.items.map (fun it =>
            if it.media_id = mediaId then
              { it with status := st.status
                        status_message := st.status_message
                        chunkProgress := parseChunkProgress st.status_message }
            else it) }

/-- The events that touch the polling map for this component. -/
inductive QueueEvent
  | pollEv (mediaId : String) (authBefore authAfter : Bool)
      (resp : Option StatusResponse)
  | startEv (mediaId : String)
  | stopEv (mediaId : String)
  deriving DecidableEq, Repr

/-- One event step. -/
def stepQueue (s : QueueState) : QueueEvent → QueueState
  | .pollEv mid aB aA resp => pollProjectStatus s mid aB aA resp
  | .startEv mid => startPolling s mid
  | .stopEv mid => stopPolling s mid

/-- Run a sequence of events. -/
def runQueue (s : QueueState) (evs : List QueueEvent) : QueueState :=
  evs.foldl stepQueue s

/-- No event of the trace re-registers polling for `mediaId`. -/
def noStartFor (mediaId : String) (evs : List QueueEvent) : Prop :=
  ∀ ev ∈ evs, ev ≠ QueueEvent.startEv mediaId

/-- The id is gone: no queue item carries it and no timer runs for it. -/
def removedFrom (mediaId : String) (s : QueueState) : Prop :=
  (∀ it ∈ s.items, it.media_id ≠ mediaId) ∧ mediaId ∉ s.timers

theorem stopPolling_removed {mediaId : String} {s : QueueState}
    (hI : ∀ it ∈ s.items, it.media_id ≠ mediaId) :
    removedFrom mediaId (stopPolling s mediaId) := by
  refine ⟨hI, ?_⟩
  intro hmem
  have := List.of_mem_filter hmem
  simp at this

theorem step_preserves_removed {mediaId : String} {s : QueueState}
    (ev : QueueEvent) (hev : ev ≠ .startEv mediaId)
    (h : removedFrom mediaId s) : removedFrom mediaId (stepQueue s ev) := by
  obtain ⟨hI, hT⟩ := h
  have hfilterI : ∀ it ∈ s.items.filter (fun it => it.media_id != mediaId),
      it.media_id ≠ mediaId := fun it hit => hI it (List.mem_filter.mp hit).1
  have hfilterT : mediaId ∉ s.timers.filter (fun tid => tid != mediaId) := by
    intro hmem
    exact hT (List.mem_filter.mp hmem).1
  cases ev with
  | pollEv mid aB aA resp =>
    show removedFrom mediaId (pollProjectStatus s mid aB aA resp)
    cases aB with
    | false => exact ⟨hI, fun hmem => hT (List.mem_filter.mp hmem).1⟩
    | true =>
      simp only [pollProjectStatus, Bool.not_true, Bool.false_eq_true,
        if_false]
      cases resp with
      | none =>
        refine ⟨?_, ?_⟩
        · intro it hit
          exact hI it (List.mem_filter.mp hit).1
        · intro hmem
          exact hT (List.mem_filter.mp hmem).1
      | some st =>
        cases aA with
        | false => exact ⟨hI, fun hmem => hT (List.mem_filter.mp hmem).1⟩
        | true =>
          simp only [Bool.not_true, Bool.false_eq_true, if_false]
          cases hact : isActiveStatus st.status with
          | false =>
            simp only [Bool.not_false, if_true]
            refine ⟨?_, ?_⟩
            · intro it hit
              exact hI it (List.mem_filter.mp hit).1
            · intro hmem
              exact hT (List.mem_filter.mp hmem).1
          | true =>
            simp only [Bool.not_true, Bool.false_eq_true, if_false]
            refine ⟨?_, hT⟩
            intro it hit
            rw [List.mem_map] at hit
            obtain ⟨it0, hit0, rfl⟩ := hit
            split
            · exact hI it0 hit0
            · exact hI it0 hit0
  | startEv mid =>
    have hmid : mid ≠ mediaId := by
      intro hmid
      exact hev (by rw [hmid])
    refine ⟨hI, ?_⟩
    intro hmem
    rcases List.mem_cons.mp hmem with hl | hl
    · exact hmid hl.symm
    · exact hT (List.mem_filter.mp hl).1
  | stopEv mid =>
    refine ⟨hI, ?_⟩
    intro hmem
    exact hT (List.mem_filter.mp hmem).1

theorem run_preserves_removed {mediaId : String} :
    ∀ (evs : List QueueEvent) (s : QueueState), noStartFor mediaId evs →
      removedFrom mediaId s → removedFrom mediaId (runQueue s evs) := by
  intro evs
  induction evs with
  | nil => intro s _ h; exact h
  | cons ev rest ih =>
    intro s hns h
    have h1 := step_preserves_removed ev (hns ev (List.mem_cons_self ev rest)) h
    exact ih (stepQueue s ev)
      (fun e he => hns e (List.mem_cons_of_mem ev he)) h1

/-- C7: when an (authenticated) poll for a media id returns a status
outside the active set — in particular the terminal stages `complete`
and `error` — the item is removed from the queue and its polling timer
is deregistered, and it stays that way under any further polling
activity in the session that does not explicitly restart polling for
that id: the media item is never polled again. -/
theorem terminal_status_removes_and_stops (s : QueueState) (mediaId : String)
    (st : StatusResponse) (hterm : isActiveStatus st.status = false)
    (evs : List QueueEvent) (hevs : noStartFor mediaId evs) :
    removedFrom mediaId (pollProjectStatus s mediaId true true (some st)) ∧
    removedFrom mediaId
      (runQueue (pollProjectStatus s mediaId true true (some st)) evs) ∧
    isActiveStatus "complete" = false ∧ isActiveStatus "error" = false := by
  have h1 : removedFrom mediaId (pollProjectStatus s mediaId true true (some st)) := by
    simp only [pollProjectStatus, Bool.not_true, Bool.false_eq_true, if_false,
      hterm, Bool.not_false, if_true]
    refine ⟨?_, ?_⟩
    · intro it hit
      have := (List.mem_filter.mp hit).2
      simpa using this
    · intro hmem
      have := (List.mem_filter.mp hmem).2
      simp at this
  exact ⟨h1, run_preserves_removed evs _ hevs h1, rfl, rfl⟩

/-- Witness for `terminal_status_removes_and_stops`: a one-item queue
polled with status `complete`, followed by an unrelated event trace. -/
theorem terminal_status_removes_and_stops_witness :
    isActiveStatus "complete" = false ∧
    noStartFor "m1" [QueueEvent.startEv "m2"] ∧
    removedFrom "m1"
      (pollProjectStatus
        ⟨[⟨"m1", "t", "transcribing", none, none⟩], ["m1"]⟩ "m1" true true
        (some ⟨"complete", some "Processing complete!"⟩)) := by
  refine ⟨rfl, by unfold noStartFor; decide, ?_⟩
  exact (terminal_status_removes_and_stops
    ⟨[⟨"m1", "t", "transcribing", none, none⟩], ["m1"]⟩ "m1"
    ⟨"complete", some "Processing complete!"⟩ rfl [QueueEvent.startEv "m2"]
    (by unfold noStartFor; decide)).1

/-! ### Clip identity and materialization (spec §4.4) -/

/-- Modelled from the spec: `_generate_clip_hash` in
`backend/services/clip_generator.py` is not part of the repository
snapshot.  Per spec §4.4, the clip identity is a stable content hash
(SHA-256 in the source) over the canonical tuple
`(media_id, start, end, platform, captions_text)` with the times rounded
to a fixed precision (0.01 s).  The digest is modelled as the canonical
rounded tuple itself — an ideal collision-free hash, which is exactly
the property the design relies on. -/
structure ClipIdentity where
  media_id : String
  startCenti : Int
  endCenti : Int
  platform : String
  captions_text : String
  deriving DecidableEq, Repr

/-- A candidate clip presented to `materialize`. -/
structure ClipCandidate where
  media_id : String
  start : ℚ
  endTime : ℚ
  platform : String
  captions_text : String
  deriving DecidableEq, Repr

/-- Round a time to the fixed 0.01 s hash precision. -/
def roundCenti (t : ℚ) : Int :=
  round (t * 100)

/-- The identity function over the canonical tuple. -/
def clipIdentity (c : ClipCandidate) : ClipIdentity :=
  ⟨c.media_id, roundCenti c.start, roundCenti c.endTime, c.platform,
    c.captions_text⟩

/-- A stored, materialized Clip row; its `id` is derived from the
identity hash. -/
structure Clip where
  id : ClipIdentity
  media_id : String
  start : ℚ
  endTime : ℚ
  platform : String
  deriving DecidableEq, Repr

/-- Modelled from the spec: the render step producing the stored row
from a candidate (the actual rendering is an external collaborator). -/
def renderClip (c : ClipCandidate) : Clip :=
  ⟨clipIdentity c, c.media_id, c.start, c.endTime, c.platform⟩

/-- Modelled from the spec (§4.4 `materialize`, Task 1.13): compute the
identity; if a clip with that identity already exists in the store,
return it with no render and no insert; otherwise render and insert.
Returns `(returned clip, new store, a render happened)`. -/
def materialize (c : ClipCandidate) (store : List Clip) :
    Clip × List Clip × Bool :=
  match store.find? (fun cl => cl.id == clipIdentity c) with
  | some cl => (cl, store, false)
  | none =>
    let cl := renderClip c
    (cl, cl :: store, true)

/-- C1: calling `materialize` twice with the identical candidate tuple
produces exactly one stored clip for that identity: the second call
renders nothing, inserts nothing, and returns the clip of the first
call unchanged. -/
theorem materialize_idempotent (c : ClipCandidate) (store : List Clip)
    (hdedup : store.countP (fun cl => cl.id == clipIdentity c) ≤ 1) :
    (materialize c ((materialize c store).2.1)).2.2 = false ∧
    (materialize c ((materialize c store).2.1)).2.1 =
      (materialize c store).2.1 ∧
    (materialize c ((materialize c store).2.1)).1 = (materialize c store).1 ∧
    (materialize c store).2.1.countP (fun cl => cl.id == clipIdentity c) = 1 := by
  cases hf : store.find? (fun cl => cl.id == clipIdentity c) with
  | some cl =>
    have hone : store.countP (fun cl => cl.id == clipIdentity c) = 1 := by
      have hpred := List.find?_some hf
      have hpos : 0 < store.countP (fun cl => cl.id == clipIdentity c) :=
        List.countP_pos_iff.mpr ⟨cl, List.mem_of_find?_eq_some hf, hpred⟩
      omega
    simp [materialize, hf, hone]
  | none =>
    have hzero : store.countP (fun cl => cl.id == clipIdentity c) = 0 :=
      List.countP_eq_zero.mpr (fun cl hcl => by
        have := List.find?_eq_none.mp hf cl hcl
        simpa using this)
    have hfind2 : ((renderClip c) :: store).find?
        (fun cl => cl.id == clipIdentity c) = some (renderClip c) :=
      List.find?_cons_of_pos _ (by simp [renderClip])
    simp [materialize, hf, hfind2, List.countP_cons, hzero, renderClip]

/-- Witness for `materialize_idempotent`: a concrete candidate against
the empty store. -/
theorem materialize_idempotent_witness :
    ([] : List Clip).countP
        (fun cl => cl.id == clipIdentity ⟨"m1", 1, 2, "tiktok", "cap"⟩) ≤ 1 ∧
    (materialize ⟨"m1", 1, 2, "tiktok", "cap"⟩
      ((materialize ⟨"m1", 1, 2, "tiktok", "cap"⟩ ([] : List Clip)).2.1)).2.2 =
      false :=
  ⟨by decide,
    (materialize_idempotent ⟨"m1", 1, 2, "tiktok", "cap"⟩ [] (by decide)).1⟩

/-! ### Chunked transcription engine (spec §4.2, Task 1.5) -/

/-- Modelled from the spec: the chunked engine of
`backend/services/transcription.py` is not part of the repository
snapshot.  Per spec §4.2 and Task 1.5, a chunk is attempted up to
`maxAttempts = 3` times. -/
def maxAttempts : Nat := 3

/-- Modelled from the spec: exponential backoff `base·2^attempt`,
capped.  The real-time sleeping itself is outside the embedding; the
delay schedule is the part with arithmetic content. -/
def backoffDelay (base cap : ℚ) (attempt : Nat) : ℚ :=
  min cap (base * 2 ^ attempt)

/-- Try attempts `i, i+1, …` while fuel lasts; first success wins. -/
def tryFrom (f : Nat → Option (List TranscriptSegment)) :
    Nat → Nat → Option (List TranscriptSegment)
  | _, 0 => none
  | i, fuel + 1 =>
    match f i with
    | some segs => some segs
    | none => tryFrom f (i + 1) fuel

/-- Modelled from the spec: transcribe one chunk with retry — up to
`maxAttempts` attempts of the transcription function. -/
def transcribeChunkWithRetry (f : Nat → Option (List TranscriptSegment)) :
    Option (List TranscriptSegment) :=
  tryFrom f 0 maxAttempts

/-- Terminal stage of a processing run. -/
inductive RunStage
  | complete
  | error
  deriving DecidableEq, Repr

/-- Result of a chunked run: stored segments, terminal stage, whether
the transcript was marked complete, and the failing chunk if any. -/
structure RunResult where
  segments : List TranscriptSegment
  stage : RunStage
  completedOk : Bool
  failedChunk : Option Nat
  deriving DecidableEq, Repr

/-- Modelled from the spec: process chunks sequentially starting at
index `k` with `fuel` chunks remaining; append each successful chunk's
segments; on a chunk whose retries are exhausted, stop with stage
`error` (no later chunk is attempted); only when all chunks succeed is
the transcript marked complete. -/
def processChunksAux (oracle : Nat → Nat → Option (List TranscriptSegment)) :
    Nat → Nat → List TranscriptSegment → RunResult
  | 0, _, acc => ⟨acc, .complete, true, none⟩
  | fuel + 1, k, acc =>
    match transcribeChunkWithRetry (oracle k) with
    | some segs => processChunksAux oracle fuel (k + 1) (acc ++ segs)
    | none => ⟨acc, .error, false, some k⟩

/-- Modelled from the spec: a whole chunked run over `n` windows. -/
def processChunks (oracle : Nat → Nat → Option (List TranscriptSegment))
    (n : Nat) : RunResult :=
  processChunksAux oracle n 0 []

/-- The segments of chunks `k, …, k+d-1` in processing order. -/
def segsFrom (segsOf : Nat → List TranscriptSegment) (k : Nat) :
    Nat → List TranscriptSegment
  | 0 => []
  | d + 1 => segsOf k ++ segsFrom segsOf (k + 1) d

theorem retryExhausted_iff (f : Nat → Option (List TranscriptSegment)) :
    transcribeChunkWithRetry f = none ↔
      (f 0 = none ∧ f 1 = none ∧ f 2 = none) := by
  unfold transcribeChunkWithRetry maxAttempts
  cases h0 : f 0 with
  | some s => simp [tryFrom, h0]
  | none =>
    cases h1 : f 1 with
    | some s => simp [tryFrom, h0, h1]
    | none =>
      cases h2 : f 2 with
      | some s => simp [tryFrom, h0, h1, h2]
      | none => simp [tryFrom, h0, h1, h2]

theorem processChunksAux_fail
    (oracle : Nat → Nat → Option (List TranscriptSegment))
    (segsOf : Nat → List TranscriptSegment) :
    ∀ (d fuel k : Nat) (acc : List TranscriptSegment), d < fuel →
      (∀ j, j < d →
        transcribeChunkWithRetry (oracle (k + j)) = some (segsOf (k + j))) →
      transcribeChunkWithRetry (oracle (k + d)) = none →
      processChunksAux oracle fuel k acc =
        ⟨acc ++ segsFrom segsOf k d, .error, false, some (k + d)⟩ := by
  intro d
  induction d with
  | zero =>
    intro fuel k acc hd _ hfail
    cases fuel with
    | zero => omega
    | succ f =>
      rw [Nat.add_zero] at hfail
      simp [processChunksAux, hfail, segsFrom]
  | succ d ih =>
    intro fuel k acc hd hsucc hfail
    cases fuel with
    | zero => omega
    | succ f =>
      have h0 : transcribeChunkWithRetry (oracle k) = some (segsOf k) := by
        have := hsucc 0 (Nat.succ_pos d)
        rwa [Nat.add_zero] at this
      have hrec := ih f (k + 1) (acc ++ segsOf k) (by omega)
        (fun j hj => by
          have := hsucc (j + 1) (by omega)
          rwa [show k + (j + 1) = k + 1 + j by omega] at this)
        (by rwa [show k + 1 + d = k + (d + 1) by omega])
      simp only [processChunksAux, h0]
      rw [hrec]
      simp [segsFrom, List.append_assoc]
      omega

/-- C4: a failing chunk is retried up to 3 times (the retry wrapper
fails exactly when all three attempts fail); and when retries are
exhausted on chunk `k` of `n` after chunks `0..k-1` succeeded, the run
ends with stage `error`, the stored segments are exactly those of
chunks before `k` (none from later chunks, which are never attempted),
the transcript is not marked complete, and the failing chunk index is
recorded. -/
theorem chunked_transcription_fail_semantics
    (oracle : Nat → Nat → Option (List TranscriptSegment))
    (segsOf : Nat → List TranscriptSegment) (n k : Nat) (hk : k < n)
    (hsucc : ∀ j, j < k →
      transcribeChunkWithRetry (oracle j) = some (segsOf j))
    (hfail0 : oracle k 0 = none) (hfail1 : oracle k 1 = none)
    (hfail2 : oracle k 2 = none) :
    maxAttempts = 3 ∧
    (∀ f : Nat → Option (List TranscriptSegment),
      transcribeChunkWithRetry f = none ↔
        (f 0 = none ∧ f 1 = none ∧ f 2 = none)) ∧
    processChunks oracle n =
      ⟨segsFrom segsOf 0 k, .error, false, some k⟩ ∧
    (processChunks oracle n).stage = .error ∧
    (processChunks oracle n).completedOk = false := by
  have hfail : transcribeChunkWithRetry (oracle k) = none :=
    (retryExhausted_iff (oracle k)).mpr ⟨hfail0, hfail1, hfail2⟩
  have hmain : processChunks oracle n =
      ⟨segsFrom segsOf 0 k, .error, false, some k⟩ := by
    have := processChunksAux_fail oracle segsOf k n 0 [] hk
      (fun j hj => by simpa using hsucc j hj) (by simpa using hfail)
    simpa [processChunks] using this
  exact ⟨rfl, retryExhausted_iff, hmain, by rw [hmain], by rw [hmain]⟩

/-- The oracle of the witness scenario: chunks 0–2 succeed, chunk 3
fails on every attempt. -/
def witnessOracle (c _attempt : Nat) : Option (List TranscriptSegment) :=
  if c < 3 then some [⟨c, c, c + 1, "t", none, 1⟩] else none

/-- The per-chunk segments of the witness scenario. -/
def witnessSegsOf (c : Nat) : List TranscriptSegment :=
  [⟨c, c, c + 1, "t", none, 1⟩]

/-- Witness for `chunked_transcription_fail_semantics`: the spec
scenario of exhausting retries on chunk 4 of 6 (zero-based chunk 3,
`n = 6`). -/
theorem chunked_transcription_fail_semantics_witness :
    processChunks witnessOracle 6 =
      ⟨segsFrom witnessSegsOf 0 3, .error, false, some 3⟩ :=
  (chunked_transcription_fail_semantics witnessOracle witnessSegsOf 6 3
    (by norm_num)
    (by intro j hj
        interval_cases j <;> rfl)
    rfl rfl rfl).2.2.1

end Spaceclip
